import Mathlib

/-!
Verification of the vault-flow core of the `noted` CLI (Go sources under
`src/`): the vault list / creation / deletion TUI state machine
(`src/internal/tui/vault.go`), the embedded directory picker
(`src/internal/tui/directory_picker.go`), the vault data model
(`src/internal/models`, `src/unnamed/part_001`) and the registry helpers in
`src/cmd/root.go` / `src/cmd/vault.go`.

The embedding is shallow: every Go function that the claims touch is
translated into an executable Lean definition.  Filesystem reads are
abstracted as a function `FileSys` (the result of `os.ReadDir`), filesystem
writes become explicit `Effect` values emitted by the update function, and
the Bubble Tea components (`list`, `textinput`) that the code merely
delegates to are represented by the observable data they produce (a new
cursor index, a new text value) carried on the incoming message.
Go `string` is Lean `String`; byte-level operations of the source
(`path[0] == '~'`, `strings.HasPrefix`) coincide with the character-level
ones used here because all the constants involved are ASCII and UTF-8 is
self-synchronizing.
-/

namespace Noted

/-! ## Lexical path algebra: `filepath.Clean`, `Join`, `Dir`, `Base`

Go's `filepath` functions on Unix are purely lexical.  `Clean` is modelled
segment-wise: split on `/`, drop empty and `.` segments, resolve `..`
against a stack, and re-render.  `tokens` splits a character list on `/`,
discarding empty segments.  -/
def tokensAux : List Char → List Char → List (List Char)
  | cur, [] => if cur = [] then [] else [cur.reverse]
  | cur, c :: cs =>
    if c = '/' then
      if cur = [] then tokensAux [] cs else cur.reverse :: tokensAux [] cs
    else tokensAux (c :: cur) cs

def tokens (l : List Char) : List (List Char) := tokensAux [] l

def dotSeg : List Char := ['.']

def dotdotSeg : List Char := ['.', '.']

/-- One step of Go `filepath.Clean`'s segment processing.  The stack is kept
reversed (head = innermost segment).  `..` pops a normal segment, is dropped
at the root of a rooted path, and accumulates at the start of a relative
path. -/
def cleanStep (rooted : Bool) (stack : List (List Char)) (seg : List Char) :
    List (List Char) :=
  if seg = dotSeg then stack
  else if seg = dotdotSeg then
    match stack with
    | [] => if rooted then [] else [dotdotSeg]
    | s :: rest => if s = dotdotSeg then dotdotSeg :: s :: rest else rest
  else seg :: stack

def cleanStack (rooted : Bool) (segs : List (List Char)) : List (List Char) :=
  segs.foldl (cleanStep rooted) []

def rootedChars : List Char → Bool
  | [] => false
  | c :: _ => c = '/'

/-- The canonical segment sequence of a path (in path order). -/
def segsChars (l : List Char) : List (List Char) :=
  (cleanStack (rootedChars l) (tokens l)).reverse

def joinSlash : List (List Char) → List Char
  | [] => []
  | [s] => s
  | s :: t :: rest => s ++ '/' :: joinSlash (t :: rest)

def renderSegs (rooted : Bool) (segs : List (List Char)) : List Char :=
  match segs with
  | [] => if rooted then ['/'] else ['.']
  | s :: rest => (if rooted then ['/'] else []) ++ joinSlash (s :: rest)

/-- Go `filepath.Clean` (Unix). -/
def cleanChars (l : List Char) : List Char :=
  renderSegs (rootedChars l) (segsChars l)

def pathClean (p : String) : String := ⟨cleanChars p.data⟩

def pathRooted (p : String) : Bool := rootedChars p.data

def pathSegs (p : String) : List (List Char) := segsChars p.data

/-- Go `filepath.Join(a, b)` (Unix): skip empty elements, join the rest with
a slash, and `Clean` the result. -/
def goJoin (a b : String) : String :=
  if a = "" then (if b = "" then "" else pathClean b)
  else pathClean (a ++ ⟨'/' :: b.data⟩)

/-- Go `filepath.Dir`: everything up to (and including) the final slash,
cleaned; `"."` when there is no slash. -/
def goDir (p : String) : String :=
  ⟨cleanChars ((p.data.reverse.dropWhile (· ≠ '/')).reverse)⟩

/-- Go `filepath.Base`: strip trailing slashes, then take the part after the
last remaining slash; `"."` for the empty path, `"/"` for all-slash paths. -/
def goBase (p : String) : String :=
  if p = "" then "." else
    let l := p.data.reverse.dropWhile (· = '/')
    if l = [] then "/" else ⟨(l.takeWhile (· ≠ '/')).reverse⟩

/-- Go `strings.HasPrefix`. -/
def hasPrefixStr (pre s : String) : Bool := pre.data.isPrefixOf s.data

/-- Invariant of the `Clean` segment stack: a block of ordinary segments on
top of a (relative-only) run of `..` segments. -/
def StackShape (rooted : Bool) (st : List (List Char)) : Prop :=
  ∃ front k, st = front ++ List.replicate k dotdotSeg ∧
    dotdotSeg ∉ front ∧
    (∀ t ∈ front, t ≠ [] ∧ '/' ∉ t ∧ t ≠ dotSeg) ∧
    (rooted = true → k = 0)

/-- `q` lies strictly inside directory `p`, comparing the two paths after
lexical cleaning: same rootedness, and the canonical segment sequence of `p`
is a proper prefix of that of `q`.  This is the path-semantic reading of
"subpath"; it agrees with plain string-prefix comparison (`p` + slash is a
prefix of `q`) whenever `p` is already a clean path other than `/` and
`.`, and unlike raw string comparison it is also meaningful when
`filepath.Join` normalizes an unclean `p`. -/
def isSubpath (q p : String) : Prop :=
  pathRooted q = pathRooted p ∧
  (pathSegs q).take (pathSegs p).length = pathSegs p ∧
  (pathSegs p).length < (pathSegs q).length

/-! ## Filesystem abstraction and the directory lister

`os.ReadDir` is abstracted as a function from a directory path to either an
error or its entries (`os.DirEntry`: a name plus an is-directory flag).
`os.ReadDir` ignores the rest of the entry metadata that this code never
touches. -/
structure DirEntry where
  name : String
  isDir : Bool
deriving DecidableEq

def FileSys : Type := String → Except Unit (List DirEntry)

/-- `listDirs` (src/internal/tui/directory_picker.go:60-73): on a read
error return `[base]`; otherwise keep the directory entries, join each name
to `base`, and sort the full path strings (`sort.Strings`, modelled by
insertion sort under the lexicographic string order). -/
def listDirs (fs : FileSys) (base : String) : List String :=
  match fs base with
  | .error _ => [base]
  | .ok entries =>
    List.insertionSort (· ≤ ·)
      ((entries.filter (·.isDir)).map (fun e => goJoin base e.name))

/-- `expandPath` (src/internal/tui/directory_picker.go:181-190): expand a
leading `~` using the home directory; `home = none` models
`os.UserHomeDir` failing, which `expandPath` propagates as an error. -/
def expandPathE (home : Option String) (p : String) : Except Unit String :=
  match p.data with
  | '~' :: rest =>
    match home with
    | none => .error ()
    | some h => .ok (goJoin h ⟨rest⟩)
  | _ => .ok p

/-- The value Go leaves in `base` after `base, _ := expandPath(prefix)`:
the expansion, or the string zero value `""` when `expandPath` failed. -/
def expandOrEmpty (home : Option String) (p : String) : String :=
  match expandPathE home p with
  | .ok s => s
  | .error _ => ""

/-- The parent directory used by `filterDirs`
(src/internal/tui/directory_picker.go:163-166): `filepath.Dir` of the
expanded input, replaced by the home directory (or `""` when
`os.UserHomeDir` fails, its error being discarded) if it is `.` or `/`. -/
def filterParent (home : Option String) (p : String) : String :=
  let par := goDir (expandOrEmpty home p)
  if par = "." ∨ par = "/" then home.getD ("") else par

/-- `directoryPickerModel.filterDirs`
(src/internal/tui/directory_picker.go:157-178).  `dirs` is the model's
unfiltered initial listing `m.dirs`. -/
def filterDirs (fs : FileSys) (home : Option String) (dirs : List String)
    (p : String) : List String :=
  if p = "" then dirs
  else if (listDirs fs (filterParent home p)).filter
        (fun d => hasPrefixStr (expandOrEmpty home p) d) = [] ∧
      expandOrEmpty home p ≠ "" then
    [expandOrEmpty home p]
  else
    (listDirs fs (filterParent home p)).filter
      (fun d => hasPrefixStr (expandOrEmpty home p) d)

/-! ## Directory picker state machine (src/internal/tui/directory_picker.go) -/
structure DirectoryPickerResult where
  Path : String := ""
  Cancelled : Bool := false
deriving DecidableEq

/-- `directoryPickerModel`.  `state` is the Go int field: 0 = browsing
input, 1 = done.  `selectedIdx` is a Go `int`, hence `Int` here. -/
structure DirPickerModel where
  input : String
  dirs : List String
  filteredDirs : List String
  selectedIdx : Int
  result : DirectoryPickerResult
  inputError : String
  state : Nat
deriving DecidableEq

/-- `getInitialDirs` (src/internal/tui/directory_picker.go:52-58): list the
home directory, falling back to `/` when it cannot be determined. -/
def getInitialDirs (fs : FileSys) (home : Option String) : List String :=
  listDirs fs (home.getD ("/"))

/-- `NewDirectoryPickerModel` (src/internal/tui/directory_picker.go:38-50).
The `textinput` placeholder/size settings are presentation-only and
omitted. -/
def newDirPickerModel (fs : FileSys) (home : Option String) : DirPickerModel :=
  { input := ""
    dirs := getInitialDirs fs home
    filteredDirs := []
    selectedIdx := 0
    result := {}
    inputError := ""
    state := 0 }

/-- Input events of the picker.  `up`/`down`/`enter`/`esc`/`q` are the key
strings matched by the Go `switch`; every other message (printable keys and
non-key messages) falls through to `textinput.Update` followed by
re-filtering, and is represented by the text value the `textinput`
component holds afterwards. -/
inductive PickerMsg
  | keyUp
  | keyDown
  | keyEnter
  | keyEsc
  | keyQ
  | fall (text : String)
deriving DecidableEq

def errEmptyPath : String := "✗ Path cannot be empty."

def errInvalidPath : String := "✗ Invalid path."

/-- `directoryPickerModel.Update`
(src/internal/tui/directory_picker.go:79-132).  The returned `tea.Cmd`
(`tea.Quit` / nil) carries no model state and is dropped. -/
def pickerUpdate (fs : FileSys) (home : Option String) (msg : PickerMsg)
    (m : DirPickerModel) : DirPickerModel :=
  if m.state = 0 then
    match msg with
    | .keyQ | .keyEsc =>
      { m with result := { m.result with Cancelled := true }, state := 1 }
    | .keyEnter =>
      if 0 ≤ m.selectedIdx ∧ m.selectedIdx < (m.filteredDirs.length : Int) then
        { m with
            result := { m.result with
              Path := m.filteredDirs.getD m.selectedIdx.toNat ("") }
            state := 1 }
      else if m.input = "" then { m with inputError := errEmptyPath }
      else
        match expandPathE home m.input with
        | .error _ => { m with inputError := errInvalidPath }
        | .ok expanded =>
          { m with result := { m.result with Path := expanded }, state := 1 }
    | .keyUp =>
      if 0 < m.selectedIdx then { m with selectedIdx := m.selectedIdx - 1 } else m
    | .keyDown =>
      if m.selectedIdx < (m.filteredDirs.length : Int) - 1 then
        { m with selectedIdx := m.selectedIdx + 1 }
      else m
    | .fall t =>
      let fd := filterDirs fs home m.dirs t
      let i0 := m.selectedIdx
      let i1 := if (fd.length : Int) ≤ i0 then (fd.length : Int) - 1 else i0
      let i2 := if i1 < 0 then 0 else i1
      { m with input := t, filteredDirs := fd, selectedIdx := i2 }
  else m

/-! ## Vault data model (src/internal/models/vault.go, src/unnamed/part_001)

`time.Time` is modelled as `Nat` (ticks since the Go zero time); the Go
zero value `time.Time{}` is `0`.  `map[string]string` / `map[string]any`
are modelled as association lists; the flow only ever constructs the empty
map, so the value type of `Settings` is kept as `String` opaquely. -/
structure VaultConfig where
  Name : String := ""
  TemplatesPath : String := ""
  LogPath : String := ""
  HistoryPath : String := ""
  SupportedTypes : List String := []
  IgnorePatterns : List String := []
  CreatedAt : Nat := 0
  ModifiedAt : Nat := 0
  Metadata : List (String × String) := []
  Settings : List (String × String) := []
deriving DecidableEq

structure Vault where
  Name : String := ""
  Path : String := ""
  VaultConfigPath : String := ""
  Config : VaultConfig := {}
deriving DecidableEq

/-- `vaultContains` (src/cmd/root.go:220-227): linear scan for an entry
with the same `Path`. -/
def vaultContains (vaults : List Vault) (v : Vault) : Bool :=
  vaults.any (fun u => u.Path == v.Path)

/-- The post-selection registry update of `launchVaultTUI`
(src/cmd/vault.go:97-100) and `ensureVault` (src/cmd/root.go:245-248):
append the selected vault only when no entry with its path exists. -/
def registerSelected (vaults : List Vault) (v : Vault) : List Vault :=
  if vaultContains vaults v then vaults else vaults ++ [v]

/-! ## Vault flow state machine (src/internal/tui/vault.go) -/
inductive VaultErr
  | writeFailed
  | mkdirFailed
deriving DecidableEq

structure VaultTUIResult where
  Name : String := ""
  Path : String := ""
  Cancelled : Bool := false
  Err : Option VaultErr := none
deriving DecidableEq

/-- `vaultState` constants (src/internal/tui/vault.go:66-76). -/
inductive VState
  | list
  | input
  | nameInput
  | confirmCreate
  | done
  | dirPicker
  | deleteConfirm
deriving DecidableEq

/-- `vaultListItem` (src/internal/tui/vault.go:140-147). -/
structure VaultListItem where
  name : String
  path : String
deriving DecidableEq

def createLabel : String := "+ Create New Vault"

def createItem : VaultListItem := { name := createLabel, path := "" }

/-- The displayed item list: one row per vault plus the synthetic trailing
"Create New Vault" row (src/internal/tui/vault.go:112-116 and 278-282). -/
def itemsOf (vaults : List Vault) : List VaultListItem :=
  vaults.map (fun v => { name := v.Name, path := v.Path }) ++ [createItem]

/-- `vaultModel` (src/internal/tui/vault.go:89-109).  `list` is reduced to
its items and cursor index (`m.list.Index()`); text inputs to their string
values.  The fields `menu`, `selectedIdx`, `editField`, `editingConfig`,
`showDirPicker`, `showDeleteConfirm`, `inputPrompt` are never read by
`Update` and are omitted. -/
structure VaultModel where
  vaults : List Vault
  listItems : List VaultListItem
  listIndex : Nat
  input : String
  nameInput : String
  state : VState
  result : VaultTUIResult
  inputError : String
  confirmPath : String
  dirPicker : DirPickerModel
  deleteIdx : Nat
deriving DecidableEq

/-- `newVaultModel` (src/internal/tui/vault.go:111-138). -/
def newVaultModel (fs : FileSys) (home : Option String)
    (vaults : List Vault) : VaultModel :=
  { vaults := vaults
    listItems := itemsOf vaults
    listIndex := 0
    input := ""
    nameInput := ""
    state := .list
    result := {}
    inputError := ""
    confirmPath := ""
    dirPicker := newDirPickerModel fs home
    deleteIdx := 0 }

/-- Keys the Go `switch` statements match on. -/
inductive VKey
  | q
  | esc
  | enter
  | up
  | down
  | dUpper
  | y
  | yUpper
  | n
  | nUpper
  | other (s : String)
deriving DecidableEq

/-- One input event of the vault flow.  `key = none` is a non-keyboard
message.  `extListIdx` and `extText` are the cursor index and text value the
embedded Bubble Tea `list` / `textinput` component holds after consuming
the event, for the branches where the Go code falls through to
`m.list.Update(msg)` / `m.nameInput.Update(msg)`; those components are
external, so their reaction to the event is universally quantified data
rather than recomputed here. -/
structure VaultMsg where
  key : Option VKey
  extListIdx : Nat
  extText : String
deriving DecidableEq

/-- How a vault-flow message is seen by the embedded directory picker when
`Update` forwards it in `stateDirPicker` (src/internal/tui/vault.go:187). -/
def toPickerMsg (msg : VaultMsg) : PickerMsg :=
  match msg.key with
  | some .up => .keyUp
  | some .down => .keyDown
  | some .enter => .keyEnter
  | some .esc => .keyEsc
  | some .q => .keyQ
  | _ => .fall msg.extText

/-- Filesystem side effects the flow performs.  `writeVault` is
`writeVaultConfig` (src/internal/tui/vault.go:382-393): it creates
`filepath.Join(path, "vault.json")` and JSON-encodes the `VaultConfig`
into it, so the effect records the target path and the encoded value.
`removeFile` is `os.Remove`, `mkdirAll` is `os.MkdirAll`. -/
inductive Effect
  | writeVault (path : String) (cfg : VaultConfig)
  | removeFile (path : String)
  | mkdirAll (path : String)
deriving DecidableEq

def sidecarName : String := "vault.json"

def templatesName : String := "templates"

def logName : String := "vault.log"

def historyName : String := "history.log"

def extMd : String := ".md"

def extPdf : String := ".pdf"

def ignGit : String := ".git"

def ignNodeModules : String := "node_modules"

def errEmptyName : String := "✗ Name cannot be empty."

/-- The `models.VaultConfig` literal built on name confirmation
(src/internal/tui/vault.go:219-228).  `CreatedAt` and `ModifiedAt` are
absent from the Go composite literal and therefore keep the `time.Time`
zero value; the code never calls `time.Now()`. -/
def buildVaultConfig (path name : String) : VaultConfig :=
  { Name := name
    TemplatesPath := goJoin path templatesName
    LogPath := goJoin path logName
    HistoryPath := goJoin path historyName
    SupportedTypes := [extMd, extPdf]
    IgnorePatterns := [ignGit, ignNodeModules]
    Metadata := []
    Settings := [] }

/-- `vaultModel.Update` (src/internal/tui/vault.go:153-295).  `wr` is the
outcome of `writeVaultConfig` (`none` = success) and `mk` the outcome of
`os.MkdirAll`, whenever the step performs them.  The function returns the
new model together with the filesystem effects attempted during the step;
`tea.Cmd` values (`tea.Quit`/nil) carry no state and are dropped.  The Go
`switch` has no case for `stateInput` or `stateDone`, so those states
return the model unchanged. -/
def vaultUpdate (fs : FileSys) (home : Option String)
    (wr mk : Option VaultErr) (msg : VaultMsg) (m : VaultModel) :
    VaultModel × List Effect :=
  match m.state with
  | .list =>
    match msg.key with
    | some .q | some .esc =>
      ({ m with result := { m.result with Cancelled := true }, state := .done }, [])
    | some .enter =>
      let idx := m.listIndex
      if idx = m.vaults.length then
        ({ m with state := .dirPicker, dirPicker := newDirPickerModel fs home }, [])
      else
        let v := m.vaults.getD idx {}
        ({ m with
            result := { m.result with Name := v.Name, Path := v.Path }
            state := .done }, [])
    | some .dUpper =>
      if m.listIndex < m.vaults.length then
        ({ m with state := .deleteConfirm, deleteIdx := m.listIndex }, [])
      else ({ m with listIndex := msg.extListIdx }, [])
    | _ => ({ m with listIndex := msg.extListIdx }, [])
  | .dirPicker =>
    let dp := pickerUpdate fs home (toPickerMsg msg) m.dirPicker
    let m1 := { m with dirPicker := dp }
    if dp.state = 1 then
      if dp.result.Cancelled then ({ m1 with state := .list }, [])
      else
        ({ m1 with
            result := { m1.result with Path := dp.result.Path }
            state := .nameInput
            nameInput := goBase dp.result.Path }, [])
    else (m1, [])
  | .nameInput =>
    match msg.key with
    | some .esc => ({ m with state := .input }, [])
    | some .enter =>
      let name := m.nameInput
      if name = "" then ({ m with inputError := errEmptyName }, [])
      else
        let cfg := buildVaultConfig m.result.Path name
        let eff := Effect.writeVault (goJoin m.result.Path sidecarName) cfg
        match wr with
        | some e =>
          ({ m with
              result := { m.result with Name := name, Err := some e }
              state := .done }, [eff])
        | none =>
          ({ m with
              result := { m.result with Name := name }
              state := .done }, [eff])
    | _ => ({ m with nameInput := msg.extText }, [])
  | .confirmCreate =>
    match msg.key with
    | some .y | some .yUpper =>
      match mk with
      | some e =>
        ({ m with result := { m.result with Err := some e }, state := .done },
          [.mkdirAll m.confirmPath])
      | none =>
        ({ m with
            result := { m.result with Path := m.confirmPath }
            state := .nameInput
            nameInput := goBase m.confirmPath }, [.mkdirAll m.confirmPath])
    | some .n | some .nUpper | some .esc => ({ m with state := .input }, [])
    | _ => (m, [])
  | .deleteConfirm =>
    match msg.key with
    | some .y | some .yUpper =>
      if m.deleteIdx < m.vaults.length then
        let v := m.vaults.getD m.deleteIdx {}
        let newVaults := m.vaults.take m.deleteIdx ++ m.vaults.drop (m.deleteIdx + 1)
        ({ m with
            vaults := newVaults
            listItems := itemsOf newVaults
            state := .list }, [.removeFile (goJoin v.Path sidecarName)])
      else (m, [])
    | some .n | some .nUpper | some .esc => ({ m with state := .list }, [])
    | _ => (m, [])
  | .input => (m, [])
  | .done => (m, [])

/-- The branch structure of `LaunchVaultTUI` after the program finishes
(src/internal/tui/vault.go:54-61): cancellation is checked first and
yields its own fixed outcome (`fmt.Errorf("vault selection cancelled")`),
before and independently of `result.Err`. -/
inductive LaunchOutcome
  | cancelled
  | failed (e : VaultErr)
  | selected (name path : String)
deriving DecidableEq

def launchClassify (r : VaultTUIResult) : LaunchOutcome :=
  if r.Cancelled then .cancelled
  else
    match r.Err with
    | some e => .failed e
    | none => .selected r.Name r.Path

/-- One step of the fold used for reachability statements: the per-step
filesystem outcomes (`wr`, `mk`) and the message. -/
structure StepInput where
  wErr : Option VaultErr
  mErr : Option VaultErr
  msg : VaultMsg
deriving DecidableEq

/-- The vault model after the flow starts with registry `vaults` and then
processes `steps` in order. -/
def runVault (fs : FileSys) (home : Option String) (vaults : List Vault)
    (steps : List StepInput) : VaultModel :=
  steps.foldl (fun m s => (vaultUpdate fs home s.wErr s.mErr s.msg m).1)
    (newVaultModel fs home vaults)

/-- The picker model after processing `msgs` from a fresh picker. -/
def runPicker (fs : FileSys) (home : Option String)
    (msgs : List PickerMsg) : DirPickerModel :=
  msgs.foldl (fun m msg => pickerUpdate fs home msg m)
    (newDirPickerModel fs home)

/-! ## Invariants -/
/-- The picker's selection invariant: the highlighted index is never
negative, and stays below the candidate count whenever candidates exist. -/
def pickerInv (p : DirPickerModel) : Prop :=
  0 ≤ p.selectedIdx ∧
    (p.filteredDirs ≠ [] → p.selectedIdx < (p.filteredDirs.length : Int))

/-- Index-safety invariant of the vault flow: while the delete-confirmation
state is active its target index is inside the vault list (so the
confirmation view's unguarded `m.vaults[m.deleteIdx]` read is in bounds),
the result carries no error before the terminal state, and the embedded
picker satisfies its selection invariant. -/
def vaultInv (m : VaultModel) : Prop :=
  (m.state = .deleteConfirm → m.deleteIdx < m.vaults.length) ∧
  (m.state ≠ .done → m.result.Err = none) ∧
  pickerInv m.dirPicker

/-! ## Concrete fixtures used by the witnesses -/
def fsErr : FileSys := fun _ => .error ()

def homeDemo : Option String := some ("/home/u")

def vaultA : Vault := { Name := "A", Path := "/va" }

def vaultB : Vault := { Name := "B", Path := "/vb" }

def dirBroken : String := "/broken"

def txtX : String := "x"

def msgsC6 : List PickerMsg := [PickerMsg.fall txtX]

def stepD : StepInput :=
  { wErr := none, mErr := none
    msg := { key := some VKey.dUpper, extListIdx := 0, extText := "" } }

def stepQ : StepInput :=
  { wErr := none, mErr := none
    msg := { key := some VKey.q, extListIdx := 0, extText := "" } }

def pathNotes : String := "/home/u/notes"

def nameWork : String := "Work"

def msgEnter : VaultMsg := { key := some VKey.enter, extListIdx := 0, extText := "" }

def msgEsc : VaultMsg := { key := some VKey.esc, extListIdx := 0, extText := "" }

def msgY : VaultMsg := { key := some VKey.y, extListIdx := 0, extText := "" }

/-- A vault model sitting in the naming state after the picker resolved to
`/home/u/notes`, with name `Work` typed. -/
def mC1 : VaultModel :=
  { newVaultModel fsErr homeDemo [] with
      state := .nameInput
      result := { Path := pathNotes }
      nameInput := nameWork }

/-- A vault model sitting in the naming state (used for the escape
transition). -/
def mC4 : VaultModel :=
  { newVaultModel fsErr homeDemo [] with state := .nameInput }

/-- A vault model in the delete-confirmation state targeting index 0 of a
two-vault registry. -/
def mC3 : VaultModel :=
  { newVaultModel fsErr homeDemo [vaultA, vaultB] with
      state := .deleteConfirm
      deleteIdx := 0 }

/-! ## Theorems -/

/-! ### Token lemmas -/
theorem tokensAux_append (ys : List Char) :
    ∀ (xs : List Char) (cur : List Char),
      tokensAux cur (xs ++ '/' :: ys) = tokensAux cur xs ++ tokens ys := by
  intro xs
  induction xs with
  | nil =>
    intro cur
    by_cases h : cur = []
    · simp [tokensAux, tokens, h]
    · simp [tokensAux, tokens, h]
  | cons c cs ih =>
    intro cur
    by_cases hc : c = '/'
    · subst hc
      by_cases h : cur = []
      · simpa [tokensAux, h] using ih cur
      · simp [tokensAux, h, List.append_eq, ih []]
    · simp only [List.cons_append, tokensAux, hc, if_neg hc]
      exact ih (c :: cur)

theorem tokens_append (xs ys : List Char) :
    tokens (xs ++ '/' :: ys) = tokens xs ++ tokens ys :=
  tokensAux_append ys xs []

theorem tokensAux_no_slash :
    ∀ (s cur : List Char), (s = [] → cur ≠ []) → (∀ c ∈ s, c ≠ '/') →
      tokensAux cur s = [cur.reverse ++ s] := by
  intro s
  induction s with
  | nil =>
    intro cur hne _
    simp [tokensAux, hne rfl]
  | cons c cs ih =>
    intro cur _ hall
    have hc : c ≠ '/' := hall c (by simp)
    simp only [tokensAux, if_neg hc]
    rw [ih (c :: cur) (by simp) (fun d hd => hall d (by simp [hd]))]
    simp

theorem tokens_no_slash (s : List Char) (hne : s ≠ []) (hall : ∀ c ∈ s, c ≠ '/') :
    tokens s = [s] := by
  have := tokensAux_no_slash s [] (fun h => absurd h hne) hall
  simpa [tokens] using this

theorem tokens_nil : tokens [] = [] := rfl

theorem tokens_slash_cons (l : List Char) : tokens ('/' :: l) = tokens l := by
  simp [tokens, tokensAux]

theorem tokensAux_good :
    ∀ (l cur : List Char), (∀ c ∈ cur, c ≠ '/') →
      ∀ t ∈ tokensAux cur l, t ≠ [] ∧ '/' ∉ t := by
  intro l
  induction l with
  | nil =>
    intro cur hcur t ht
    by_cases h : cur = [] <;> simp [tokensAux, h] at ht
    subst ht
    constructor
    · simpa using h
    · simp only [List.mem_reverse]
      intro hs
      exact hcur '/' hs rfl
  | cons c cs ih =>
    intro cur hcur t ht
    by_cases hc : c = '/'
    · subst hc
      by_cases h : cur = []
      · simp only [tokensAux, if_pos rfl, h, if_pos rfl] at ht
        exact ih [] (by simp) t ht
      · simp only [tokensAux, if_pos rfl, if_neg h] at ht
        rcases List.mem_cons.mp ht with h1 | h1
        · subst h1
          refine ⟨by simpa using h, ?_⟩
          simp only [List.mem_reverse]
          intro hs
          exact hcur '/' hs rfl
        · exact ih [] (by simp) t h1
    · simp only [tokensAux, if_neg hc] at ht
      refine ih (c :: cur) ?_ t ht
      intro d hd
      rcases List.mem_cons.mp hd with h1 | h1
      · subst h1; exact hc
      · exact hcur d h1

theorem tokens_good (l : List Char) : ∀ t ∈ tokens l, t ≠ [] ∧ '/' ∉ t :=
  tokensAux_good l [] (by simp)

theorem stackShape_nil (rooted : Bool) : StackShape rooted [] :=
  ⟨[], 0, by simp, by simp, by simp, fun _ => rfl⟩

theorem stackShape_mem {rooted : Bool} {st : List (List Char)}
    (h : StackShape rooted st) : ∀ t ∈ st, t ≠ [] ∧ '/' ∉ t := by
  obtain ⟨front, k, rfl, _, hgood, _⟩ := h
  intro t ht
  rcases List.mem_append.mp ht with h1 | h1
  · exact ⟨(hgood t h1).1, (hgood t h1).2.1⟩
  · have := List.eq_of_mem_replicate h1
    subst this
    exact ⟨by simp [dotdotSeg], by simp [dotdotSeg]⟩

theorem stackShape_step {rooted : Bool} {st : List (List Char)}
    (h : StackShape rooted st) (seg : List Char)
    (h1 : seg ≠ []) (h2 : '/' ∉ seg) :
    StackShape rooted (cleanStep rooted st seg) := by
  obtain ⟨front, k, hst, hnd, hgood, hk⟩ := h
  by_cases hdot : seg = dotSeg
  · simpa [cleanStep, hdot] using ⟨front, k, hst, hnd, hgood, hk⟩
  by_cases hdd : seg = dotdotSeg
  · subst hdd
    cases hfront : front with
    | nil =>
      subst hfront
      simp only [List.nil_append] at hst
      cases hk2 : k with
      | zero =>
        subst hk2
        simp only [List.replicate] at hst
        subst hst
        simp only [cleanStep, if_neg hdot, if_pos rfl]
        by_cases hr : rooted
        · subst hr
          simpa using stackShape_nil true
        · have hr' : rooted = false := by simpa using hr
          subst hr'
          exact ⟨[], 1, by simp, by simp, by simp, by simp⟩
      | succ k' =>
        subst hk2
        subst hst
        have hr : rooted = false := by
          by_contra hcon
          have : rooted = true := by simpa using hcon
          simpa using hk this
        subst hr
        simp only [List.replicate, cleanStep, if_neg hdot, if_pos rfl, if_pos rfl]
        exact ⟨[], k' + 2, by simp [List.replicate], by simp, by simp, by simp⟩
    | cons f front' =>
      subst hfront
      have hfne : f ≠ dotdotSeg := fun hco => hnd (by simp [hco])
      subst hst
      simp only [List.cons_append, cleanStep, if_neg hdot, if_pos rfl, if_neg hfne]
      exact ⟨front', k, rfl, fun hco => hnd (by simp [hco]),
        fun t ht => hgood t (by simp [ht]), hk⟩
  · subst hst
    simp only [cleanStep, if_neg hdot, if_neg hdd]
    exact ⟨seg :: front, k, by simp,
      by
        intro hmem
        rcases List.mem_cons.mp hmem with h3 | h3
        · exact hdd h3.symm
        · exact hnd h3,
      by
        intro t ht
        rcases List.mem_cons.mp ht with h3 | h3
        · subst h3; exact ⟨h1, h2, hdot⟩
        · exact hgood t h3, hk⟩

theorem stackShape_fold {rooted : Bool} {st : List (List Char)}
    (h : StackShape rooted st) (T : List (List Char))
    (hT : ∀ t ∈ T, t ≠ [] ∧ '/' ∉ t) :
    StackShape rooted (T.foldl (cleanStep rooted) st) := by
  induction T generalizing st with
  | nil => simpa using h
  | cons seg T' ih =>
    simp only [List.foldl_cons]
    refine ih (stackShape_step h seg (hT seg (by simp)).1 (hT seg (by simp)).2) ?_
    intro t ht
    exact hT t (by simp [ht])

theorem cleanStack_shape (rooted : Bool) (l : List Char) :
    StackShape rooted (cleanStack rooted (tokens l)) :=
  stackShape_fold (stackShape_nil rooted) (tokens l) (tokens_good l)

theorem foldl_cleanStep_push {rooted : Bool} (L : List (List Char))
    (hL : ∀ s ∈ L, s ≠ dotSeg ∧ s ≠ dotdotSeg) (st : List (List Char)) :
    L.foldl (cleanStep rooted) st = L.reverse ++ st := by
  induction L generalizing st with
  | nil => simp
  | cons s L' ih =>
    have hs := hL s (by simp)
    simp only [List.foldl_cons, cleanStep, if_neg hs.1, if_neg hs.2]
    rw [ih (fun t ht => hL t (by simp [ht])) (s :: st)]
    simp

theorem foldl_cleanStep_dots :
    ∀ (k i : ℕ), (List.replicate k dotdotSeg).foldl (cleanStep false)
      (List.replicate i dotdotSeg) = List.replicate (k + i) dotdotSeg := by
  intro k
  induction k with
  | zero => intro i; simp
  | succ k' ih =>
    intro i
    have hstep : cleanStep false (List.replicate i dotdotSeg) dotdotSeg =
        List.replicate (i + 1) dotdotSeg := by
      cases i with
      | zero => simp [cleanStep, dotSeg, dotdotSeg, List.replicate]
      | succ i' =>
        simp [cleanStep, dotSeg, dotdotSeg, List.replicate_succ]
    rw [List.replicate_succ, List.foldl_cons, hstep, ih (i + 1)]
    congr 1
    omega

theorem cleanStack_of_shape_reverse {rooted : Bool} {st : List (List Char)}
    (h : StackShape rooted st) :
    st.reverse.foldl (cleanStep rooted) [] = st := by
  obtain ⟨front, k, rfl, hnd, hgood, hk⟩ := h
  have hfront : ∀ s ∈ front.reverse, s ≠ dotSeg ∧ s ≠ dotdotSeg := by
    intro s hs
    rw [List.mem_reverse] at hs
    exact ⟨(hgood s hs).2.2, fun hco => hnd (hco ▸ hs)⟩
  rw [List.reverse_append, List.reverse_replicate]
  rw [List.foldl_append]
  by_cases hr : rooted
  · subst hr
    rw [hk rfl]
    simp only [List.replicate, List.foldl_nil]
    rw [foldl_cleanStep_push front.reverse hfront []]
    simp
  · have hr' : rooted = false := by simpa using hr
    subst hr'
    have := foldl_cleanStep_dots k 0
    simp only [List.replicate, Nat.add_zero] at this
    rw [this, foldl_cleanStep_push front.reverse hfront]
    simp

theorem joinSlash_eq_append (s : List Char) (rest : List (List Char)) :
    ∃ tail, joinSlash (s :: rest) = s ++ tail := by
  cases rest with
  | nil => exact ⟨[], by simp [joinSlash]⟩
  | cons t r => exact ⟨'/' :: joinSlash (t :: r), rfl⟩

theorem tokens_joinSlash :
    ∀ (S : List (List Char)), S ≠ [] → (∀ s ∈ S, s ≠ [] ∧ '/' ∉ s) →
      tokens (joinSlash S) = S := by
  intro S
  induction S with
  | nil => intro h; exact absurd rfl h
  | cons s rest ih =>
    intro _ hgood
    have hs := hgood s (by simp)
    cases rest with
    | nil =>
      simp only [joinSlash]
      exact tokens_no_slash s hs.1 (fun c hc hco => hs.2 (hco ▸ hc))
    | cons t r =>
      simp only [joinSlash]
      rw [tokens_append, tokens_no_slash s hs.1 (fun c hc hco => hs.2 (hco ▸ hc))]
      rw [ih (by simp) (fun u hu => hgood u (by simp [hu]))]
      simp

theorem rootedChars_renderSegs (rooted : Bool) (S : List (List Char))
    (hgood : ∀ s ∈ S, s ≠ [] ∧ '/' ∉ s) :
    rootedChars (renderSegs rooted S) = rooted := by
  cases S with
  | nil =>
    cases rooted <;> simp [renderSegs, rootedChars]
  | cons s rest =>
    have hs := hgood s (by simp)
    cases rooted with
    | true => simp [renderSegs, rootedChars]
    | false =>
      have hr : renderSegs false (s :: rest) = joinSlash (s :: rest) := by
        simp [renderSegs]
      obtain ⟨tail, htail⟩ := joinSlash_eq_append s rest
      rw [hr, htail]
      cases hcase : s with
      | nil => exact absurd hcase hs.1
      | cons c cs =>
        have hc : c ≠ '/' := fun hco => hs.2 (by simp [hcase, hco])
        simp [rootedChars, hc]

theorem tokens_renderSegs (rooted : Bool) (S : List (List Char))
    (hgood : ∀ s ∈ S, s ≠ [] ∧ '/' ∉ s) :
    cleanStack rooted (tokens (renderSegs rooted S)) =
      S.foldl (cleanStep rooted) [] := by
  cases S with
  | nil =>
    cases rooted with
    | true =>
      have hr : renderSegs true ([] : List (List Char)) = ['/'] := by
        simp [renderSegs]
      have ht : tokens ['/'] = [] := by simp [tokens, tokensAux]
      simp [hr, cleanStack, ht]
    | false =>
      have hr : renderSegs false ([] : List (List Char)) = ['.'] := by
        simp [renderSegs]
      have ht : tokens ['.'] = [dotSeg] := by simp [tokens, tokensAux, dotSeg]
      simp [hr, cleanStack, ht, cleanStep]
  | cons s rest =>
    cases rooted with
    | true =>
      have hr : renderSegs true (s :: rest) = '/' :: joinSlash (s :: rest) := by
        simp [renderSegs]
      rw [hr, cleanStack, tokens_slash_cons,
        tokens_joinSlash (s :: rest) (by simp) hgood]
    | false =>
      have hr : renderSegs false (s :: rest) = joinSlash (s :: rest) := by
        simp [renderSegs]
      rw [hr, cleanStack, tokens_joinSlash (s :: rest) (by simp) hgood]

/-- `filepath.Clean` is idempotent at the level of rootedness and canonical
segments: cleaning a path does not change either. -/
theorem segsChars_cleanChars (l : List Char) :
    rootedChars (cleanChars l) = rootedChars l ∧
      segsChars (cleanChars l) = segsChars l := by
  set r := rootedChars l with hr
  have hshape : StackShape r (cleanStack r (tokens l)) := cleanStack_shape r l
  have hgood : ∀ s ∈ segsChars l, s ≠ [] ∧ '/' ∉ s := by
    intro s hs
    rw [segsChars, List.mem_reverse] at hs
    exact stackShape_mem hshape s hs
  have hrooted : rootedChars (cleanChars l) = r := by
    rw [cleanChars]
    exact rootedChars_renderSegs r (segsChars l) hgood
  refine ⟨hrooted, ?_⟩
  rw [segsChars, hrooted, cleanChars]
  rw [tokens_renderSegs r (segsChars l) hgood]
  rw [segsChars, cleanStack_of_shape_reverse hshape]

theorem pathSegs_pathClean (p : String) :
    pathSegs (pathClean p) = pathSegs p ∧
      pathRooted (pathClean p) = pathRooted p := by
  have h := segsChars_cleanChars p.data
  exact ⟨h.2, h.1⟩

theorem rootedChars_append (l m : List Char) (h : l ≠ []) :
    rootedChars (l ++ m) = rootedChars l := by
  cases l with
  | nil => exact absurd rfl h
  | cons c cs => simp [rootedChars]

theorem segsChars_append_seg (l c : List Char) (hne : l ≠ [])
    (h1 : c ≠ []) (h2 : ∀ ch ∈ c, ch ≠ '/')
    (h3 : c ≠ dotSeg) (h4 : c ≠ dotdotSeg) :
    segsChars (l ++ '/' :: c) = segsChars l ++ [c] := by
  have hroot : rootedChars (l ++ '/' :: c) = rootedChars l :=
    rootedChars_append l _ hne
  rw [segsChars, hroot, tokens_append, tokens_no_slash c h1 h2]
  rw [cleanStack, List.foldl_append]
  simp only [List.foldl_cons, List.foldl_nil]
  rw [show cleanStep (rootedChars l) (List.foldl (cleanStep (rootedChars l)) [] (tokens l)) c
      = c :: List.foldl (cleanStep (rootedChars l)) [] (tokens l) by
    simp [cleanStep, h3, h4]]
  rw [List.reverse_cons]
  rfl

theorem string_ne_empty_of_data {c : String} (h : c.data ≠ []) : c ≠ "" := by
  intro hc
  subst hc
  exact h rfl

/-- Canonical segments and rootedness of `filepath.Join(p, c)` for a plain
final component `c` (non-empty, slash-free, not `.` or `..`): joining
appends exactly one segment, for every string `p`. -/
theorem goJoin_segs (p c : String) (h1 : c.data ≠ [])
    (h2 : ∀ ch ∈ c.data, ch ≠ '/')
    (h3 : c.data ≠ dotSeg) (h4 : c.data ≠ dotdotSeg) :
    pathSegs (goJoin p c) = pathSegs p ++ [c.data] ∧
      pathRooted (goJoin p c) = pathRooted p := by
  have hc : c ≠ "" := string_ne_empty_of_data h1
  have hr : pathRooted c = false := by
    cases hd : c.data with
    | nil => exact absurd hd h1
    | cons ch cs =>
      have hch : ch ≠ '/' := h2 ch (by simp [hd])
      rw [pathRooted, hd]
      simp [rootedChars, hch]
  have hsegs1 : pathSegs c = [c.data] := by
    have hr' : rootedChars c.data = false := hr
    have htok : tokens c.data = [c.data] := tokens_no_slash c.data h1 h2
    rw [pathSegs, segsChars, hr', htok]
    simp [cleanStack, cleanStep, h3, h4]
  have hcplain : pathSegs c = [c.data] ∧ pathRooted c = false := ⟨hsegs1, hr⟩
  by_cases hp : p = ""
  · subst hp
    rw [goJoin, if_pos rfl, if_neg hc]
    have hidem := pathSegs_pathClean c
    constructor
    · rw [hidem.1, hcplain.1]
      rfl
    · rw [hidem.2, hcplain.2]
      rfl
  · rw [goJoin, if_neg hp]
    have hpd : p.data ≠ [] := fun h => hp (String.ext h)
    have hdata : (p ++ (⟨'/' :: c.data⟩ : String)).data = p.data ++ '/' :: c.data := by
      rw [String.data_append]
    have hidem := pathSegs_pathClean (p ++ (⟨'/' :: c.data⟩ : String))
    constructor
    · rw [hidem.1, pathSegs, hdata, segsChars_append_seg p.data c.data hpd h1 h2 h3 h4]
      rfl
    · rw [hidem.2, pathRooted, hdata, rootedChars_append p.data _ hpd]
      rfl

/-- For every string `p` and plain final component `c`,
`filepath.Join(p, c)` is a subpath of `p`. -/
theorem isSubpath_goJoin (p c : String) (h1 : c.data ≠ [])
    (h2 : ∀ ch ∈ c.data, ch ≠ '/')
    (h3 : c.data ≠ dotSeg) (h4 : c.data ≠ dotdotSeg) :
    isSubpath (goJoin p c) p := by
  obtain ⟨hsegs, hroot⟩ := goJoin_segs p c h1 h2 h3 h4
  refine ⟨hroot, ?_, ?_⟩
  · rw [hsegs]
    exact List.take_left (pathSegs p) [c.data]
  · rw [hsegs]
    simp

theorem pickerInv_init (fs : FileSys) (home : Option String) :
    pickerInv (newDirPickerModel fs home) := by
  refine ⟨by simp [newDirPickerModel], ?_⟩
  intro hne
  exact absurd rfl hne

theorem pickerInv_step (fs : FileSys) (home : Option String) (msg : PickerMsg)
    (m : DirPickerModel) (h : pickerInv m) :
    pickerInv (pickerUpdate fs home msg m) := by
  obtain ⟨h0, h1⟩ := h
  by_cases hst : m.state = 0
  · cases msg with
    | keyQ =>
      simp only [pickerUpdate, if_pos hst]
      exact ⟨h0, h1⟩
    | keyEsc =>
      simp only [pickerUpdate, if_pos hst]
      exact ⟨h0, h1⟩
    | keyEnter =>
      simp only [pickerUpdate, if_pos hst]
      split
      · exact ⟨h0, h1⟩
      · split
        · exact ⟨h0, h1⟩
        · split
          · exact ⟨h0, h1⟩
          · exact ⟨h0, h1⟩
    | keyUp =>
      simp only [pickerUpdate, if_pos hst]
      split
      · dsimp only [pickerInv]
        constructor
        · omega
        · intro hne
          have := h1 hne
          omega
      · exact ⟨h0, h1⟩
    | keyDown =>
      simp only [pickerUpdate, if_pos hst]
      split
      · dsimp only [pickerInv]
        constructor
        · omega
        · intro hne
          omega
      · exact ⟨h0, h1⟩
    | fall t =>
      simp only [pickerUpdate, if_pos hst]
      dsimp only [pickerInv]
      constructor
      · split
        · omega
        · omega
      · intro hne
        have hlen : 0 < (filterDirs fs home m.dirs t).length :=
          List.length_pos.mpr hne
        split
        · omega
        · split
          · omega
          · omega
  · simp only [pickerUpdate, if_neg hst]
    exact ⟨h0, h1⟩

theorem vaultInv_init (fs : FileSys) (home : Option String)
    (vaults : List Vault) : vaultInv (newVaultModel fs home vaults) := by
  refine ⟨?_, fun _ => rfl, pickerInv_init fs home⟩
  intro hco
  simp [newVaultModel] at hco

theorem vaultInv_step (fs : FileSys) (home : Option String)
    (wr mk : Option VaultErr) (msg : VaultMsg) (m : VaultModel)
    (h : vaultInv m) : vaultInv (vaultUpdate fs home wr mk msg m).1 := by
  obtain ⟨hdel, herr, hpick⟩ := h
  cases hst : m.state with
  | input =>
    simp only [vaultUpdate, hst]
    exact ⟨hdel, herr, hpick⟩
  | done =>
    simp only [vaultUpdate, hst]
    exact ⟨hdel, herr, hpick⟩
  | list =>
    have herr0 : m.result.Err = none := herr (by simp [hst])
    cases hk : msg.key with
    | none =>
      simp only [vaultUpdate, hst, hk]
      exact ⟨nofun, fun _ => herr0, hpick⟩
    | some k =>
      cases k with
      | q =>
        simp only [vaultUpdate, hst, hk]
        exact ⟨nofun, fun hh => absurd rfl hh, hpick⟩
      | esc =>
        simp only [vaultUpdate, hst, hk]
        exact ⟨nofun, fun hh => absurd rfl hh, hpick⟩
      | enter =>
        simp only [vaultUpdate, hst, hk]
        split
        · exact ⟨nofun, fun _ => herr0, pickerInv_init fs home⟩
        · exact ⟨nofun, fun hh => absurd rfl hh, hpick⟩
      | dUpper =>
        simp only [vaultUpdate, hst, hk]
        split
        · next hlt => exact ⟨fun _ => hlt, fun _ => herr0, hpick⟩
        · exact ⟨nofun, fun _ => herr0, hpick⟩
      | up =>
        simp only [vaultUpdate, hst, hk]
        exact ⟨nofun, fun _ => herr0, hpick⟩
      | down =>
        simp only [vaultUpdate, hst, hk]
        exact ⟨nofun, fun _ => herr0, hpick⟩
      | y =>
        simp only [vaultUpdate, hst, hk]
        exact ⟨nofun, fun _ => herr0, hpick⟩
      | yUpper =>
        simp only [vaultUpdate, hst, hk]
        exact ⟨nofun, fun _ => herr0, hpick⟩
      | n =>
        simp only [vaultUpdate, hst, hk]
        exact ⟨nofun, fun _ => herr0, hpick⟩
      | nUpper =>
        simp only [vaultUpdate, hst, hk]
        exact ⟨nofun, fun _ => herr0, hpick⟩
      | other s =>
        simp only [vaultUpdate, hst, hk]
        exact ⟨nofun, fun _ => herr0, hpick⟩
  | dirPicker =>
    have herr0 : m.result.Err = none := herr (by simp [hst])
    have hdp := pickerInv_step fs home (toPickerMsg msg) m.dirPicker hpick
    simp only [vaultUpdate, hst]
    split
    · split
      · exact ⟨nofun, fun _ => herr0, hdp⟩
      · exact ⟨nofun, fun _ => herr0, hdp⟩
    · exact ⟨nofun, fun _ => herr0, hdp⟩
  | nameInput =>
    have herr0 : m.result.Err = none := herr (by simp [hst])
    cases hk : msg.key with
    | none =>
      simp only [vaultUpdate, hst, hk]
      exact ⟨nofun, fun _ => herr0, hpick⟩
    | some k =>
      cases k with
      | esc =>
        simp only [vaultUpdate, hst, hk]
        exact ⟨nofun, fun _ => herr0, hpick⟩
      | enter =>
        simp only [vaultUpdate, hst, hk]
        split
        · exact ⟨nofun, fun _ => herr0, hpick⟩
        · cases wr with
          | some e => exact ⟨nofun, fun hh => absurd rfl hh, hpick⟩
          | none => exact ⟨nofun, fun hh => absurd rfl hh, hpick⟩
      | q =>
        simp only [vaultUpdate, hst, hk]
        exact ⟨nofun, fun _ => herr0, hpick⟩
      | up =>
        simp only [vaultUpdate, hst, hk]
        exact ⟨nofun, fun _ => herr0, hpick⟩
      | down =>
        simp only [vaultUpdate, hst, hk]
        exact ⟨nofun, fun _ => herr0, hpick⟩
      | dUpper =>
        simp only [vaultUpdate, hst, hk]
        exact ⟨nofun, fun _ => herr0, hpick⟩
      | y =>
        simp only [vaultUpdate, hst, hk]
        exact ⟨nofun, fun _ => herr0, hpick⟩
      | yUpper =>
        simp only [vaultUpdate, hst, hk]
        exact ⟨nofun, fun _ => herr0, hpick⟩
      | n =>
        simp only [vaultUpdate, hst, hk]
        exact ⟨nofun, fun _ => herr0, hpick⟩
      | nUpper =>
        simp only [vaultUpdate, hst, hk]
        exact ⟨nofun, fun _ => herr0, hpick⟩
      | other s =>
        simp only [vaultUpdate, hst, hk]
        exact ⟨nofun, fun _ => herr0, hpick⟩
  | confirmCreate =>
    have herr0 : m.result.Err = none := herr (by simp [hst])
    cases hk : msg.key with
    | none =>
      simp only [vaultUpdate, hst, hk]
      exact ⟨hdel, herr, hpick⟩
    | some k =>
      cases k with
      | y =>
        simp only [vaultUpdate, hst, hk]
        cases mk with
        | some e => exact ⟨nofun, fun hh => absurd rfl hh, hpick⟩
        | none => exact ⟨nofun, fun _ => herr0, hpick⟩
      | yUpper =>
        simp only [vaultUpdate, hst, hk]
        cases mk with
        | some e => exact ⟨nofun, fun hh => absurd rfl hh, hpick⟩
        | none => exact ⟨nofun, fun _ => herr0, hpick⟩
      | n =>
        simp only [vaultUpdate, hst, hk]
        exact ⟨nofun, fun _ => herr0, hpick⟩
      | nUpper =>
        simp only [vaultUpdate, hst, hk]
        exact ⟨nofun, fun _ => herr0, hpick⟩
      | esc =>
        simp only [vaultUpdate, hst, hk]
        exact ⟨nofun, fun _ => herr0, hpick⟩
      | q =>
        simp only [vaultUpdate, hst, hk]
        exact ⟨hdel, herr, hpick⟩
      | up =>
        simp only [vaultUpdate, hst, hk]
        exact ⟨hdel, herr, hpick⟩
      | down =>
        simp only [vaultUpdate, hst, hk]
        exact ⟨hdel, herr, hpick⟩
      | enter =>
        simp only [vaultUpdate, hst, hk]
        exact ⟨hdel, herr, hpick⟩
      | dUpper =>
        simp only [vaultUpdate, hst, hk]
        exact ⟨hdel, herr, hpick⟩
      | other s =>
        simp only [vaultUpdate, hst, hk]
        exact ⟨hdel, herr, hpick⟩
  | deleteConfirm =>
    have herr0 : m.result.Err = none := herr (by simp [hst])
    cases hk : msg.key with
    | none =>
      simp only [vaultUpdate, hst, hk]
      exact ⟨hdel, herr, hpick⟩
    | some k =>
      cases k with
      | y =>
        simp only [vaultUpdate, hst, hk]
        split
        · exact ⟨nofun, fun _ => herr0, hpick⟩
        · exact ⟨hdel, herr, hpick⟩
      | yUpper =>
        simp only [vaultUpdate, hst, hk]
        split
        · exact ⟨nofun, fun _ => herr0, hpick⟩
        · exact ⟨hdel, herr, hpick⟩
      | n =>
        simp only [vaultUpdate, hst, hk]
        exact ⟨nofun, fun _ => herr0, hpick⟩
      | nUpper =>
        simp only [vaultUpdate, hst, hk]
        exact ⟨nofun, fun _ => herr0, hpick⟩
      | esc =>
        simp only [vaultUpdate, hst, hk]
        exact ⟨nofun, fun _ => herr0, hpick⟩
      | q =>
        simp only [vaultUpdate, hst, hk]
        exact ⟨hdel, herr, hpick⟩
      | up =>
        simp only [vaultUpdate, hst, hk]
        exact ⟨hdel, herr, hpick⟩
      | down =>
        simp only [vaultUpdate, hst, hk]
        exact ⟨hdel, herr, hpick⟩
      | enter =>
        simp only [vaultUpdate, hst, hk]
        exact ⟨hdel, herr, hpick⟩
      | dUpper =>
        simp only [vaultUpdate, hst, hk]
        exact ⟨hdel, herr, hpick⟩
      | other s =>
        simp only [vaultUpdate, hst, hk]
        exact ⟨hdel, herr, hpick⟩

theorem vaultInv_run (fs : FileSys) (home : Option String)
    (vaults : List Vault) (steps : List StepInput) :
    vaultInv (runVault fs home vaults steps) := by
  rw [runVault]
  induction steps using List.reverseRecOn with
  | nil => exact vaultInv_init fs home vaults
  | append_singleton steps s ih =>
    rw [List.foldl_append, List.foldl_cons, List.foldl_nil]
    exact vaultInv_step fs home s.wErr s.mErr s.msg _ ih

theorem pickerInv_run (fs : FileSys) (home : Option String)
    (msgs : List PickerMsg) : pickerInv (runPicker fs home msgs) := by
  rw [runPicker]
  induction msgs using List.reverseRecOn with
  | nil => exact pickerInv_init fs home
  | append_singleton msgs msg ih =>
    rw [List.foldl_append, List.foldl_cons, List.foldl_nil]
    exact pickerInv_step fs home msg _ ih

/-! ## Helper lemmas for the claims -/
theorem segsChars_good (l : List Char) :
    ∀ s ∈ segsChars l, s ≠ [] ∧ '/' ∉ s := by
  intro s hs
  rw [segsChars, List.mem_reverse] at hs
  exact stackShape_mem (cleanStack_shape (rootedChars l) l) s hs

theorem cleanChars_ne_nil (l : List Char) : cleanChars l ≠ [] := by
  rw [cleanChars]
  cases hS : segsChars l with
  | nil => cases hr : rootedChars l <;> simp [renderSegs]
  | cons s rest =>
    have hs := segsChars_good l s (by rw [hS]; simp)
    obtain ⟨tail, htail⟩ := joinSlash_eq_append s rest
    cases hr : rootedChars l with
    | true => simp [renderSegs]
    | false =>
      have hrs : renderSegs false (s :: rest) = joinSlash (s :: rest) := by
        simp [renderSegs]
      rw [hrs, htail]
      cases hsc : s with
      | nil => exact absurd hsc hs.1
      | cons c cs => simp

theorem pathClean_ne_empty (p : String) : pathClean p ≠ "" := by
  intro hco
  have : cleanChars p.data = [] := congrArg String.data hco
  exact cleanChars_ne_nil p.data this

theorem goJoin_ne_empty (a b : String) (ha : a ≠ "") : goJoin a b ≠ "" := by
  rw [goJoin, if_neg ha]
  exact pathClean_ne_empty _

theorem expandPathE_some_ok (h : String) (p : String) :
    ∃ s, expandPathE (some h) p = .ok s ∧
      (s = p ∨ ∃ rest, s = goJoin h ⟨rest⟩) := by
  unfold expandPathE
  split
  · next rest _ => exact ⟨goJoin h ⟨rest⟩, rfl, Or.inr ⟨rest, rfl⟩⟩
  · exact ⟨p, rfl, Or.inl rfl⟩

theorem expandOrEmpty_ne_empty (h : String) (p : String) (hh : h ≠ "")
    (hp : p ≠ "") : expandOrEmpty (some h) p ≠ "" := by
  obtain ⟨s, hok, hcase⟩ := expandPathE_some_ok h p
  rw [expandOrEmpty, hok]
  rcases hcase with hcase | ⟨rest, hcase⟩
  · rw [hcase]; exact hp
  · rw [hcase]; exact goJoin_ne_empty h _ hh

theorem hasPrefixStr_refl (s : String) : hasPrefixStr s s = true := by
  rw [hasPrefixStr]
  exact List.isPrefixOf_iff_prefix.mpr (List.prefix_refl _)

theorem hasPrefixStr_empty (s : String) : hasPrefixStr ("") s = true := by
  rw [hasPrefixStr]
  exact List.isPrefixOf_iff_prefix.mpr List.nil_prefix

/-! ## Claims -/
/-- C7: for every base directory, `listDirs` returns exactly the immediate
children of `base` that are directories, each joined to `base` with
`filepath.Join`, sorted lexicographically by full path string; on any read
failure it returns the single-element list `[base]` instead of failing. -/
theorem C7_listDirs_spec (fs : FileSys) (base : String) :
    (∀ e, fs base = .error e → listDirs fs base = [base]) ∧
    (∀ entries, fs base = .ok entries →
      (listDirs fs base).Perm
          ((entries.filter (fun en => en.isDir)).map
            (fun en => goJoin base en.name)) ∧
        (listDirs fs base).Sorted (· ≤ ·)) := by
  constructor
  · intro e he
    simp [listDirs, he]
  · intro entries he
    constructor
    · simp only [listDirs, he]
      exact List.perm_insertionSort _ _
    · simp only [listDirs, he]
      exact List.sorted_insertionSort _ _

theorem C7_listDirs_spec_witness : listDirs fsErr dirBroken = [dirBroken] :=
  (C7_listDirs_spec fsErr dirBroken).1 () rfl

/-- C8: `vaultContains` is reflexive on path equality — whenever the list
holds an entry with the selected vault's path the check succeeds — and the
registry update in `launchVaultTUI` then leaves the list unchanged, so
selecting an already-registered vault never appends a duplicate entry. -/
theorem C8_contains_no_duplicate (vaults : List Vault) (v : Vault)
    (h : ∃ u ∈ vaults, u.Path = v.Path) :
    vaultContains vaults v = true ∧ registerSelected vaults v = vaults := by
  obtain ⟨u, hu, hp⟩ := h
  have hc : vaultContains vaults v = true := by
    rw [vaultContains, List.any_eq_true]
    exact ⟨u, hu, by rw [hp]; exact beq_self_eq_true v.Path⟩
  refine ⟨hc, ?_⟩
  simp [registerSelected, hc]

theorem C8_contains_no_duplicate_witness :
    vaultContains [vaultA] vaultA = true ∧
      registerSelected [vaultA] vaultA = [vaultA] :=
  C8_contains_no_duplicate [vaultA] vaultA ⟨vaultA, by simp, rfl⟩

/-- C9: pressing `q` or escape in the top list sets the cancellation flag
and leaves the error field empty, moving to the terminal state; the
post-run branching of `LaunchVaultTUI` then classifies this result through
its dedicated cancellation branch, distinct from the `result.Err` failure
branch. -/
theorem C9_cancellation_outcome (fs : FileSys) (home : Option String)
    (vaults : List Vault) (steps : List StepInput) (s : StepInput)
    (hs : (runVault fs home vaults steps).state = .list)
    (hk : s.msg.key = some VKey.q ∨ s.msg.key = some VKey.esc) :
    (vaultUpdate fs home s.wErr s.mErr s.msg
        (runVault fs home vaults steps)).1.result.Cancelled = true ∧
    (vaultUpdate fs home s.wErr s.mErr s.msg
        (runVault fs home vaults steps)).1.result.Err = none ∧
    (vaultUpdate fs home s.wErr s.mErr s.msg
        (runVault fs home vaults steps)).1.state = .done ∧
    launchClassify (vaultUpdate fs home s.wErr s.mErr s.msg
        (runVault fs home vaults steps)).1.result = .cancelled := by
  have hinv := vaultInv_run fs home vaults steps
  have herr0 : (runVault fs home vaults steps).result.Err = none :=
    hinv.2.1 (by rw [hs]; nofun)
  rcases hk with hk | hk <;>
  · simp only [vaultUpdate, hs, hk]
    simp [launchClassify, herr0]

theorem C9_cancellation_outcome_witness :
    (vaultUpdate fsErr homeDemo stepQ.wErr stepQ.mErr stepQ.msg
        (runVault fsErr homeDemo [] [])).1.result.Cancelled = true ∧
    (vaultUpdate fsErr homeDemo stepQ.wErr stepQ.mErr stepQ.msg
        (runVault fsErr homeDemo [] [])).1.result.Err = none ∧
    (vaultUpdate fsErr homeDemo stepQ.wErr stepQ.mErr stepQ.msg
        (runVault fsErr homeDemo [] [])).1.state = .done ∧
    launchClassify (vaultUpdate fsErr homeDemo stepQ.wErr stepQ.mErr stepQ.msg
        (runVault fsErr homeDemo [] [])).1.result = .cancelled :=
  C9_cancellation_outcome fsErr homeDemo [] [] stepQ rfl (Or.inl rfl)

/-- C6: after any sequence of input events processed by the directory
picker from its initial state, whenever the candidate list is non-empty the
highlighted index satisfies `0 ≤ selectedIdx ≤ len(filteredDirs) - 1`. -/
theorem C6_highlight_bounds (fs : FileSys) (home : Option String)
    (msgs : List PickerMsg)
    (hne : (runPicker fs home msgs).filteredDirs ≠ []) :
    0 ≤ (runPicker fs home msgs).selectedIdx ∧
      (runPicker fs home msgs).selectedIdx ≤
        ((runPicker fs home msgs).filteredDirs.length : Int) - 1 := by
  have h := pickerInv_run fs home msgs
  refine ⟨h.1, ?_⟩
  have := h.2 hne
  omega

theorem C6_highlight_bounds_witness :
    (runPicker fsErr homeDemo msgsC6).filteredDirs ≠ [] ∧
      0 ≤ (runPicker fsErr homeDemo msgsC6).selectedIdx ∧
      (runPicker fsErr homeDemo msgsC6).selectedIdx ≤
        ((runPicker fsErr homeDemo msgsC6).filteredDirs.length : Int) - 1 :=
  ⟨by decide, C6_highlight_bounds fsErr homeDemo msgsC6 (by decide)⟩

/-- C10: in every state reachable by the vault flow, the delete-target
index is inside the vault list whenever the delete-confirmation state is
active (so the confirmation handler's and view's `vaults[deleteIdx]` reads
are in bounds, and delete-mode is only ever entered with
`deleteIdx < len(vaults)`), and the embedded picker's highlighted index is
non-negative and below the candidate count whenever candidates exist (so
the guarded `filteredDirs[selectedIdx]` read on enter is in bounds). -/
theorem C10_index_safety (fs : FileSys) (home : Option String)
    (vaults : List Vault) (steps : List StepInput) :
    ((runVault fs home vaults steps).state = .deleteConfirm →
      (runVault fs home vaults steps).deleteIdx <
        (runVault fs home vaults steps).vaults.length) ∧
    (0 ≤ (runVault fs home vaults steps).dirPicker.selectedIdx ∧
      ((runVault fs home vaults steps).dirPicker.filteredDirs ≠ [] →
        (runVault fs home vaults steps).dirPicker.selectedIdx <
          ((runVault fs home vaults steps).dirPicker.filteredDirs.length : Int))) := by
  have h := vaultInv_run fs home vaults steps
  exact ⟨h.1, h.2.2⟩

theorem C10_index_safety_witness :
    (runVault fsErr homeDemo [vaultA] [stepD]).state = VState.deleteConfirm ∧
      (runVault fsErr homeDemo [vaultA] [stepD]).deleteIdx <
        (runVault fsErr homeDemo [vaultA] [stepD]).vaults.length :=
  ⟨by decide, (C10_index_safety fsErr homeDemo [vaultA] [stepD]).1 (by decide)⟩

/-- C5: for every typed prefix `p` (in a session whose home directory is
determined and non-empty, as `os.UserHomeDir` guarantees on success), every
entry of the picker's filtered candidate list has `expandPath(p)` as a
string prefix; and when no listed candidate has that prefix and `p` is
non-empty, the list is exactly the single synthetic entry
`expandPath(p)`. -/
theorem C5_filtered_prefix (fs : FileSys) (h : String) (dirs : List String)
    (p : String) (hh : h ≠ "") :
    (∀ d ∈ filterDirs fs (some h) dirs p,
        hasPrefixStr (expandOrEmpty (some h) p) d = true) ∧
    (p ≠ "" →
      (listDirs fs (filterParent (some h) p)).filter
          (fun d => hasPrefixStr (expandOrEmpty (some h) p) d) = [] →
      filterDirs fs (some h) dirs p = [expandOrEmpty (some h) p]) := by
  by_cases hp : p = ""
  · subst hp
    constructor
    · intro d _
      exact hasPrefixStr_empty d
    · intro hpe _
      exact absurd rfl hpe
  · have hbase : expandOrEmpty (some h) p ≠ "" := expandOrEmpty_ne_empty h p hh hp
    constructor
    · intro d hd
      rw [filterDirs, if_neg hp] at hd
      by_cases hcond : (listDirs fs (filterParent (some h) p)).filter
          (fun d => hasPrefixStr (expandOrEmpty (some h) p) d) = [] ∧
          expandOrEmpty (some h) p ≠ ""
      · rw [if_pos hcond] at hd
        rw [List.mem_singleton] at hd
        rw [hd]
        exact hasPrefixStr_refl _
      · rw [if_neg hcond] at hd
        exact List.of_mem_filter hd
    · intro _ hfil
      rw [filterDirs, if_neg hp, if_pos ⟨hfil, hbase⟩]

theorem C5_filtered_prefix_witness :
    hasPrefixStr (expandOrEmpty homeDemo txtX) txtX = true ∧
      filterDirs fsErr homeDemo [] txtX = [expandOrEmpty homeDemo txtX] := by
  have h := C5_filtered_prefix fsErr (homeDemo.getD ("")) [] txtX (by decide)
  exact ⟨h.1 txtX (by decide), h.2 (by decide) (by decide)⟩

/-- C1: with the picker resolved to directory `P` (`m.result.Path = P`) and
a non-empty name `N` confirmed in the naming state, the flow attempts
exactly one sidecar write, targeting `filepath.Join(P, "vault.json")`, and
the encoded `VaultConfig`'s `name` field equals `N` while its
`templates_path`, `log_path` and `history_path` fields are subpaths of `P`
(sub-path in the lexical-clean sense of `isSubpath`, which `filepath.Join`
guarantees for every string `P`). -/
theorem C1_creation_sidecar (fs : FileSys) (home : Option String)
    (wr mk : Option VaultErr) (msg : VaultMsg) (m : VaultModel) (P N : String)
    (hs : m.state = .nameInput) (hP : m.result.Path = P) (hN : m.nameInput = N)
    (hne : N ≠ "") (hk : msg.key = some VKey.enter) :
    (vaultUpdate fs home wr mk msg m).2 =
      [Effect.writeVault (goJoin P sidecarName) (buildVaultConfig P N)] ∧
    (buildVaultConfig P N).Name = N ∧
    isSubpath (buildVaultConfig P N).TemplatesPath P ∧
    isSubpath (buildVaultConfig P N).LogPath P ∧
    isSubpath (buildVaultConfig P N).HistoryPath P := by
  subst hP
  subst hN
  refine ⟨?_, rfl, ?_, ?_, ?_⟩
  · simp only [vaultUpdate, hs, hk, if_neg hne]
    cases wr <;> rfl
  · exact isSubpath_goJoin _ templatesName (by decide) (by decide) (by decide)
      (by decide)
  · exact isSubpath_goJoin _ logName (by decide) (by decide) (by decide)
      (by decide)
  · exact isSubpath_goJoin _ historyName (by decide) (by decide) (by decide)
      (by decide)

theorem C1_creation_sidecar_witness :
    (vaultUpdate fsErr homeDemo none none msgEnter mC1).2 =
      [Effect.writeVault (goJoin pathNotes sidecarName)
        (buildVaultConfig pathNotes nameWork)] ∧
    (buildVaultConfig pathNotes nameWork).Name = nameWork ∧
    isSubpath (buildVaultConfig pathNotes nameWork).TemplatesPath pathNotes ∧
    isSubpath (buildVaultConfig pathNotes nameWork).LogPath pathNotes ∧
    isSubpath (buildVaultConfig pathNotes nameWork).HistoryPath pathNotes :=
  C1_creation_sidecar fsErr homeDemo none none msgEnter mC1 pathNotes nameWork
    rfl rfl rfl (by decide) rfl

/-- C2: confirming a non-empty vault name builds the `VaultConfig` with the
default supported extensions, ignore patterns and empty metadata/settings
maps as the claim states, but its `CreatedAt`/`ModifiedAt` fields are left
at the `time.Time` zero value (modelled as `0`), not set to the current
time: the Go composite literal at src/internal/tui/vault.go:219-228 omits
both fields and the flow never calls `time.Now()`. -/
theorem C2_config_defaults_timestamps_zero (fs : FileSys)
    (home : Option String) (wr mk : Option VaultErr) (msg : VaultMsg)
    (m : VaultModel) (hs : m.state = .nameInput) (hne : m.nameInput ≠ "")
    (hk : msg.key = some VKey.enter) :
    (vaultUpdate fs home wr mk msg m).2 =
      [Effect.writeVault (goJoin m.result.Path sidecarName)
        (buildVaultConfig m.result.Path m.nameInput)] ∧
    (buildVaultConfig m.result.Path m.nameInput).SupportedTypes =
      [extMd, extPdf] ∧
    (buildVaultConfig m.result.Path m.nameInput).IgnorePatterns =
      [ignGit, ignNodeModules] ∧
    (buildVaultConfig m.result.Path m.nameInput).Metadata = [] ∧
    (buildVaultConfig m.result.Path m.nameInput).Settings = [] ∧
    (buildVaultConfig m.result.Path m.nameInput).CreatedAt = 0 ∧
    (buildVaultConfig m.result.Path m.nameInput).ModifiedAt = 0 := by
  refine ⟨?_, rfl, rfl, rfl, rfl, rfl, rfl⟩
  simp only [vaultUpdate, hs, hk, if_neg hne]
  cases wr <;> rfl

theorem C2_config_defaults_timestamps_zero_witness :
    (vaultUpdate fsErr homeDemo none none msgEnter mC1).2 =
      [Effect.writeVault (goJoin pathNotes sidecarName)
        (buildVaultConfig pathNotes nameWork)] ∧
    (buildVaultConfig pathNotes nameWork).SupportedTypes = [extMd, extPdf] ∧
    (buildVaultConfig pathNotes nameWork).IgnorePatterns =
      [ignGit, ignNodeModules] ∧
    (buildVaultConfig pathNotes nameWork).Metadata = [] ∧
    (buildVaultConfig pathNotes nameWork).Settings = [] ∧
    (buildVaultConfig pathNotes nameWork).CreatedAt = 0 ∧
    (buildVaultConfig pathNotes nameWork).ModifiedAt = 0 :=
  C2_config_defaults_timestamps_zero fsErr homeDemo none none msgEnter mC1
    rfl (by decide) rfl

/-- C3: confirming deletion of vault index `i` (for every `i` referencing a
real entry) removes exactly that entry, shifts all later entries down by
one, rebuilds the displayed list with the synthetic "Create New Vault"
entry as its last item, and returns to the listing state, not the terminal
state. -/
theorem C3_delete_shifts (fs : FileSys) (home : Option String)
    (wr mk : Option VaultErr) (msg : VaultMsg) (m : VaultModel) (i : Nat)
    (hs : m.state = .deleteConfirm) (hi : m.deleteIdx = i)
    (hlt : i < m.vaults.length)
    (hk : msg.key = some VKey.y ∨ msg.key = some VKey.yUpper) :
    (vaultUpdate fs home wr mk msg m).1.vaults.length + 1 = m.vaults.length ∧
    (∀ j, j < i →
      (vaultUpdate fs home wr mk msg m).1.vaults[j]? = m.vaults[j]?) ∧
    (∀ j, i ≤ j →
      (vaultUpdate fs home wr mk msg m).1.vaults[j]? = m.vaults[j + 1]?) ∧
    (vaultUpdate fs home wr mk msg m).1.listItems =
      itemsOf (vaultUpdate fs home wr mk msg m).1.vaults ∧
    (vaultUpdate fs home wr mk msg m).1.listItems.getLast? = some createItem ∧
    (vaultUpdate fs home wr mk msg m).1.state = .list ∧
    (vaultUpdate fs home wr mk msg m).1.state ≠ .done := by
  subst hi
  rcases hk with hk | hk <;>
  · simp only [vaultUpdate, hs, hk, if_pos hlt]
    refine ⟨?_, ?_, ?_, by trivial, ?_, by trivial, by decide⟩
    · simp only [List.length_append, List.length_take, List.length_drop]
      omega
    · intro j hj
      rw [List.getElem?_append, List.length_take,
        if_pos (show j < min m.deleteIdx m.vaults.length by omega)]
      rw [List.getElem?_take, if_pos hj]
    · intro j hij
      rw [List.getElem?_append, List.length_take,
        if_neg (show ¬j < min m.deleteIdx m.vaults.length by omega)]
      rw [List.getElem?_drop]
      congr 1
      omega
    · rw [itemsOf]
      exact List.getLast?_concat _

theorem C3_delete_shifts_witness :
    (vaultUpdate fsErr homeDemo none none msgY mC3).1.vaults.length + 1 =
      mC3.vaults.length ∧
    (vaultUpdate fsErr homeDemo none none msgY mC3).1.listItems.getLast? =
      some createItem ∧
    (vaultUpdate fsErr homeDemo none none msgY mC3).1.state = VState.list :=
  have h := C3_delete_shifts fsErr homeDemo none none msgY mC3 0 rfl rfl
    (by decide) (Or.inl rfl)
  ⟨h.1, h.2.2.2.2.1, h.2.2.2.2.2.1⟩

/-- C4 counterexample: pressing escape in the naming state moves the flow
to the path-input state (`stateInput`), which is not the listing state, so
the claim "returns the flow to the Listing state" fails on the code
(src/internal/tui/vault.go:205-209 sets `m.state = stateInput`). -/
theorem C4_esc_goes_to_input_not_list :
    (vaultUpdate fsErr homeDemo none none msgEsc mC4).1.state = VState.input ∧
      VState.input ≠ VState.list := by
  constructor
  · decide
  · decide

/-- C4 (amended): pressing escape in the naming state moves the flow to the
path-input state (`stateInput`), with no directory created and no sidecar
file written (the step performs no filesystem effect), and the result and
registry are untouched. -/
theorem C4_esc_no_side_effects (fs : FileSys) (home : Option String)
    (wr mk : Option VaultErr) (msg : VaultMsg) (m : VaultModel)
    (hs : m.state = .nameInput) (hk : msg.key = some VKey.esc) :
    (vaultUpdate fs home wr mk msg m).1.state = .input ∧
    (vaultUpdate fs home wr mk msg m).2 = [] ∧
    (vaultUpdate fs home wr mk msg m).1.result = m.result ∧
    (vaultUpdate fs home wr mk msg m).1.vaults = m.vaults := by
  simp [vaultUpdate, hs, hk]

theorem C4_esc_no_side_effects_witness :
    (vaultUpdate fsErr homeDemo none none msgEsc mC4).1.state = VState.input ∧
    (vaultUpdate fsErr homeDemo none none msgEsc mC4).2 = [] ∧
    (vaultUpdate fsErr homeDemo none none msgEsc mC4).1.result = mC4.result ∧
    (vaultUpdate fsErr homeDemo none none msgEsc mC4).1.vaults = mC4.vaults :=
  C4_esc_no_side_effects fsErr homeDemo none none msgEsc mC4 rfl rfl

end Noted
